import Mathlib

/-
Verification of the Watts-Strogatz ring-lattice / rewiring code in
src/rgraph_ws.cpp (functions `ring_lattice` and `rewire_graph_cpp`).

Shallow embedding conventions:
  * a sparse weighted adjacency matrix is a total function `ℕ × ℕ → ℚ`
    together with its dimension `n` (entries outside the n x n block are 0
    for every graph the code builds); `double` weights are modelled as `ℚ`;
  * the armadillo update `graph.at(i,l) += 1.0` is `Function.update`;
  * the R random source `unif_rand()` is an injected stream `σ : ℕ → ℚ`
    consumed left to right; the current read position is threaded through,
    and the returned position is a ghost observation of how many draws were
    consumed; the spec's random interface yields values in [0,1);
  * `stop(msg)` becomes `Except.error msg`;
  * the unbounded C `while` loop of the rewiring search is run on explicit
    fuel `n*n + n + 1`; this bound is proved sufficient for every stream of
    draws in [0,1) (theorem for C8), and a `fuelOut` exit kind records the
    (unreachable) exhaustion case; a ghost flag on the rewiring fold records
    whether any search exited without satisfying its constraints.
-/

/-- A weighted adjacency matrix: dimension plus a total weight function. -/
structure Graph where
  n : ℕ
  w : ℕ × ℕ → ℚ

/-- Total edge weight: the sum of all entries of the n x n block. -/
def totN (n : ℕ) (w : ℕ × ℕ → ℚ) : ℚ :=
  ∑ c in Finset.range n ×ˢ Finset.range n, w c

/-- Total edge weight of a graph. -/
def Graph.total (g : Graph) : ℚ := totN g.n g.w

/-- Symmetry of a weight function (the undirected storage invariant). -/
def Symm (w : ℕ × ℕ → ℚ) : Prop := ∀ a b : ℕ, w (a, b) = w (b, a)

/-- One `+= 1.0` on a matrix cell. -/
def addCell (w : ℕ × ℕ → ℚ) (c : ℕ × ℕ) : ℕ × ℕ → ℚ :=
  Function.update w c (w c + 1)

/-- Embeds `int l = i + j; if (l >= n) l = l - n;` from `ring_lattice`. -/
def tgt (N i j : ℕ) : ℕ := if N ≤ i + j then i + j - N else i + j

/-- Body of the inner loop of `ring_lattice`: connect `i` to its `j0+1`-th
neighbour (and mirror the entry when undirected). -/
def ringBody (N : ℕ) (und : Bool) (i : ℕ) (w : ℕ × ℕ → ℚ) (j0 : ℕ) : ℕ × ℕ → ℚ :=
  let l := tgt N i (j0 + 1)
  let w1 := addCell w (i, l)
  if und then addCell w1 (l, i) else w1

/-- The two nested loops of `ring_lattice`: `for i in 0..N-1, for j in 1..K`. -/
def ringLoop (N K : ℕ) (und : Bool) (w0 : ℕ × ℕ → ℚ) : ℕ × ℕ → ℚ :=
  (List.range N).foldl (fun w i => (List.range K).foldl (ringBody N und i) w) w0

/-- Embedding of `ring_lattice(int n, int k, bool undirected)`:
`n`, `k` are C ints, so the parameter check `(n-1) < k` is over ℤ; on
success an `n.toNat` by `n.toNat` matrix is built with the effective
half-degree `k/2` when undirected and `k > 1`. -/
def ring_lattice (n k : ℤ) (undirected : Bool) : Except String Graph :=
  if n - 1 < k then Except.error "k can be at most n - 1"
  else
    let k2 := if undirected ∧ 1 < k then k / 2 else k
    Except.ok ⟨n.toNat, ringLoop n.toNat k2.toNat undirected (fun _ => 0)⟩

/-- The list of cells hit by the inner-loop body at `(i, j0)` (two cells when
undirected, else one). -/
def blockCells (N : ℕ) (und : Bool) (i j0 : ℕ) : List (ℕ × ℕ) :=
  let l := tgt N i (j0 + 1)
  if und then [(i, l), (l, i)] else [(i, l)]

/-- Cells hit by the inner loop for row `i`, offsets `j0 = 0..K-1`. -/
def rowCells (N : ℕ) (und : Bool) (i : ℕ) : ℕ → List (ℕ × ℕ)
  | 0 => []
  | K + 1 => rowCells N und i K ++ blockCells N und i K

/-- Cells hit by the whole double loop, rows `i = 0..m-1`. -/
def latticeCells (N K : ℕ) (und : Bool) : ℕ → List (ℕ × ℕ)
  | 0 => []
  | m + 1 => latticeCells N K und m ++ rowCells N und m K

/-- Multiplicity of a cell in a list of cells. -/
def cellCount (p : ℕ × ℕ) : List (ℕ × ℕ) → ℕ
  | [] => 0
  | c :: L => (if p = c then 1 else 0) + cellCount p L

lemma cellCount_append (p : ℕ × ℕ) (L M : List (ℕ × ℕ)) :
    cellCount p (L ++ M) = cellCount p L + cellCount p M := by
  induction L with
  | nil => simp [cellCount]
  | cons c L ih => simp [cellCount, ih]; ring

lemma addCell_apply (w : ℕ × ℕ → ℚ) (c p : ℕ × ℕ) :
    addCell w c p = w p + if p = c then 1 else 0 := by
  by_cases h : p = c
  · subst h; simp [addCell]
  · simp [addCell, Function.update_noteq h, h]

lemma ringBody_apply (N : ℕ) (und : Bool) (i : ℕ) (w : ℕ × ℕ → ℚ) (j0 : ℕ)
    (p : ℕ × ℕ) :
    ringBody N und i w j0 p = w p + (cellCount p (blockCells N und i j0) : ℚ) := by
  cases und with
  | false => simp [ringBody, blockCells, addCell_apply, cellCount]
  | true =>
    simp only [ringBody, blockCells, if_true]
    rw [addCell_apply, addCell_apply]
    simp [cellCount]
    ring

lemma ring_inner_apply (N : ℕ) (und : Bool) (i : ℕ) (p : ℕ × ℕ) :
    ∀ (K : ℕ) (w : ℕ × ℕ → ℚ),
      ((List.range K).foldl (ringBody N und i) w) p
        = w p + (cellCount p (rowCells N und i K) : ℚ) := by
  intro K
  induction K with
  | zero => intro w; simp [rowCells, cellCount]
  | succ K ih =>
    intro w
    rw [List.range_succ, List.foldl_append]
    simp only [List.foldl_cons, List.foldl_nil]
    rw [ringBody_apply, ih, rowCells, cellCount_append]
    push_cast
    ring

lemma ringLoop_apply (N K : ℕ) (und : Bool) (w0 : ℕ × ℕ → ℚ) (p : ℕ × ℕ) :
    ringLoop N K und w0 p = w0 p + (cellCount p (latticeCells N K und N) : ℚ) := by
  suffices h : ∀ m : ℕ,
      ((List.range m).foldl (fun w i => (List.range K).foldl (ringBody N und i) w) w0) p
        = w0 p + (cellCount p (latticeCells N K und m) : ℚ) by
    exact h N
  intro m
  induction m with
  | zero => simp [latticeCells, cellCount, ringLoop]
  | succ m ih =>
    rw [List.range_succ, List.foldl_append]
    simp only [List.foldl_cons, List.foldl_nil]
    rw [ring_inner_apply, ih, latticeCells, cellCount_append]
    push_cast
    ring

lemma tgt_mod (N i j : ℕ) (hi : i < N) (hj : j ≤ N) : tgt N i j = (i + j) % N := by
  unfold tgt
  by_cases h : N ≤ i + j
  · rw [if_pos h, Nat.mod_eq_sub_mod h, Nat.mod_eq_of_lt (by omega)]
  · rw [if_neg h, Nat.mod_eq_of_lt (by omega)]

lemma tgt_lt (N i j : ℕ) (hi : i < N) (hj : j ≤ N) : tgt N i j < N := by
  unfold tgt
  by_cases h : N ≤ i + j
  · rw [if_pos h]; omega
  · rw [if_neg h]; omega

lemma mod_add_cancel_lt (N x y j : ℕ) (hx : x < N) (hy : y < N)
    (h : (x + j) % N = (y + j) % N) : x = y := by
  have h1 : x + j ≡ y + j [MOD N] := h
  have h2 : x ≡ y [MOD N] := Nat.ModEq.add_right_cancel' j h1
  have h3 : x % N = y % N := h2
  rwa [Nat.mod_eq_of_lt hx, Nat.mod_eq_of_lt hy] at h3

lemma tgt_ne_self (N i j : ℕ) (hi : i < N) (hj1 : 1 ≤ j) (hj : j ≤ N - 1) :
    tgt N i j ≠ i := by
  rw [tgt_mod N i j hi (by omega)]
  intro h
  have h2 : (i + j) % N = (i + 0) % N := by
    rw [Nat.add_zero, Nat.mod_eq_of_lt hi, h]
  have := mod_add_cancel_lt N j 0 i (by omega) (by omega)
    (by rw [Nat.add_comm j i, Nat.add_comm 0 i]; exact h2)
  omega

lemma cellCount_rowCells (N : ℕ) (und : Bool) (i : ℕ) (p : ℕ × ℕ) :
    ∀ K : ℕ, cellCount p (rowCells N und i K)
      = ∑ j0 in Finset.range K, cellCount p (blockCells N und i j0) := by
  intro K
  induction K with
  | zero => simp [rowCells, cellCount]
  | succ K ih => rw [rowCells, cellCount_append, ih, Finset.sum_range_succ]

lemma cellCount_latticeCells (N K : ℕ) (und : Bool) (p : ℕ × ℕ) :
    ∀ m : ℕ, cellCount p (latticeCells N K und m)
      = ∑ i in Finset.range m, ∑ j0 in Finset.range K, cellCount p (blockCells N und i j0) := by
  intro m
  induction m with
  | zero => simp [latticeCells, cellCount]
  | succ m ih =>
    rw [latticeCells, cellCount_append, ih, cellCount_rowCells, Finset.sum_range_succ]

lemma cellCount_block_false (N : ℕ) (i j0 : ℕ) (p : ℕ × ℕ) :
    cellCount p (blockCells N false i j0)
      = if p = (i, tgt N i (j0 + 1)) then 1 else 0 := by
  simp [blockCells, cellCount]

lemma cellCount_block_true (N : ℕ) (i j0 : ℕ) (p : ℕ × ℕ) :
    cellCount p (blockCells N true i j0)
      = (if p = (i, tgt N i (j0 + 1)) then 1 else 0)
        + (if p = (tgt N i (j0 + 1), i) then 1 else 0) := by
  simp [blockCells, cellCount]

lemma sum_ind_unique (K : ℕ) (t : ℕ → ℕ) (b : ℕ)
    (hinj : ∀ x y, x < K → y < K → t x = t y → x = y) :
    (∑ j0 in Finset.range K, if b = t j0 then (1 : ℕ) else 0)
      = if ∃ j0, j0 < K ∧ b = t j0 then 1 else 0 := by
  by_cases h : ∃ j0, j0 < K ∧ b = t j0
  · obtain ⟨j0, hj0, hb⟩ := h
    rw [if_pos ⟨j0, hj0, hb⟩,
      Finset.sum_eq_single_of_mem j0 (Finset.mem_range.mpr hj0), if_pos hb]
    intro i hi hne
    rw [if_neg]
    intro hbi
    exact hne (hinj i j0 (Finset.mem_range.mp hi) hj0 (by rw [← hbi, ← hb]))
  · rw [if_neg h]
    apply Finset.sum_eq_zero
    intro i hi
    rw [if_neg]
    intro hbi
    exact h ⟨i, Finset.mem_range.mp hi, hbi⟩

lemma lattice_entry_false (N K : ℕ) (hK : K ≤ N - 1) (a b : ℕ) :
    cellCount (a, b) (latticeCells N K false N)
      = if a < N ∧ b ∈ (Finset.Icc 1 K).image (fun j => (a + j) % N) then 1 else 0 := by
  rw [cellCount_latticeCells]
  by_cases ha : a < N
  · have hN1 : 1 ≤ N := by omega
    rw [Finset.sum_eq_single_of_mem a (Finset.mem_range.mpr ha)]
    · have step : ∀ j0 ∈ Finset.range K,
          cellCount (a, b) (blockCells N false a j0)
            = if b = (a + (j0 + 1)) % N then (1 : ℕ) else 0 := by
        intro j0 hj0
        have hj0K := Finset.mem_range.mp hj0
        rw [cellCount_block_false, tgt_mod N a (j0 + 1) ha (by omega)]
        simp [Prod.mk.injEq]
      rw [Finset.sum_congr rfl step,
        sum_ind_unique K (fun j0 => (a + (j0 + 1)) % N) b]
      · have hiff : (∃ j0, j0 < K ∧ b = (a + (j0 + 1)) % N)
            ↔ (a < N ∧ b ∈ (Finset.Icc 1 K).image (fun j => (a + j) % N)) := by
          constructor
          · rintro ⟨j0, h1, h2⟩
            exact ⟨ha, Finset.mem_image.mpr
              ⟨j0 + 1, Finset.mem_Icc.mpr (by omega), h2.symm⟩⟩
          · rintro ⟨-, hmem⟩
            obtain ⟨j, hj, h3⟩ := Finset.mem_image.mp hmem
            have hj2 := Finset.mem_Icc.mp hj
            refine ⟨j - 1, by omega, ?_⟩
            have hjj : j - 1 + 1 = j := by omega
            rw [hjj]; exact h3.symm
        rw [if_congr hiff rfl rfl]
      · intro x y hx hy hxy
        have hx2 : a + (x + 1) = x + (a + 1) := by omega
        have hy2 : a + (y + 1) = y + (a + 1) := by omega
        simp only [hx2, hy2] at hxy
        exact mod_add_cancel_lt N x y (a + 1) (by omega) (by omega) hxy
    · intro i hi hne
      apply Finset.sum_eq_zero
      intro j0 hj0
      rw [cellCount_block_false, if_neg]
      intro hh
      exact hne (by injection hh with h1 h2; exact h1.symm)
  · rw [if_neg (by tauto)]
    apply Finset.sum_eq_zero
    intro i hi
    apply Finset.sum_eq_zero
    intro j0 hj0
    rw [cellCount_block_false, if_neg]
    intro hh
    have h1 : a = i := congrArg Prod.fst hh
    exact ha (h1 ▸ Finset.mem_range.mp hi)

lemma sum_pair_fst (N a i t : ℕ) (ht : t < N) :
    (∑ b in Finset.range N, if (a, b) = (i, t) then (1 : ℕ) else 0)
      = if a = i then 1 else 0 := by
  by_cases hai : a = i
  · subst hai
    simp only [Prod.mk.injEq, true_and]
    rw [Finset.sum_ite_eq' (Finset.range N) t (fun _ => (1 : ℕ)),
      if_pos (Finset.mem_range.mpr ht)]
    simp
  · simp [Prod.mk.injEq, hai]

lemma sum_pair_snd (N a i t : ℕ) (hi : i < N) :
    (∑ b in Finset.range N, if (a, b) = (t, i) then (1 : ℕ) else 0)
      = if a = t then 1 else 0 := by
  by_cases hat : a = t
  · subst hat
    simp only [Prod.mk.injEq, true_and]
    rw [Finset.sum_ite_eq' (Finset.range N) i (fun _ => (1 : ℕ)),
      if_pos (Finset.mem_range.mpr hi)]
    simp
  · simp [Prod.mk.injEq, hat]

lemma sum_tgt_hit (N j a : ℕ) (ha : a < N) (hj1 : 1 ≤ j) (hjN : j ≤ N) :
    (∑ i in Finset.range N, if a = tgt N i j then (1 : ℕ) else 0) = 1 := by
  have hstep : ∀ i ∈ Finset.range N,
      (if a = tgt N i j then (1 : ℕ) else 0) = if a = (i + j) % N then 1 else 0 := by
    intro i hi
    rw [tgt_mod N i j (Finset.mem_range.mp hi) hjN]
  rw [Finset.sum_congr rfl hstep]
  have hN : 0 < N := by omega
  set i0 := (a + N - j) % N with hi0
  have hi0N : i0 < N := Nat.mod_lt _ hN
  have hhit : (i0 + j) % N = a := by
    rw [hi0, Nat.mod_add_mod]
    have harr : a + N - j + j = a + N := by omega
    rw [harr, Nat.add_mod_right, Nat.mod_eq_of_lt ha]
  rw [Finset.sum_eq_single_of_mem i0 (Finset.mem_range.mpr hi0N)]
  · rw [if_pos hhit.symm]
  · intro i hi hne
    rw [if_neg]
    intro hai
    exact hne (mod_add_cancel_lt N i i0 j (Finset.mem_range.mp hi) hi0N
      (by rw [← hai, hhit]))

lemma sum_own_cells (N K : ℕ) (hK : K ≤ N - 1) (a : ℕ) (ha : a < N) :
    (∑ b in Finset.range N, ∑ i in Finset.range N, ∑ j0 in Finset.range K,
      if (a, b) = (i, tgt N i (j0 + 1)) then (1 : ℕ) else 0) = K := by
  rw [Finset.sum_comm]
  have inner : ∀ i ∈ Finset.range N,
      (∑ b in Finset.range N, ∑ j0 in Finset.range K,
        if (a, b) = (i, tgt N i (j0 + 1)) then (1 : ℕ) else 0)
        = if a = i then K else 0 := by
    intro i hi
    rw [Finset.sum_comm]
    have step : ∀ j0 ∈ Finset.range K,
        (∑ b in Finset.range N, if (a, b) = (i, tgt N i (j0 + 1)) then (1 : ℕ) else 0)
          = if a = i then 1 else 0 := by
      intro j0 hj0
      have hj0K := Finset.mem_range.mp hj0
      exact sum_pair_fst N a i _ (tgt_lt N i (j0 + 1) (Finset.mem_range.mp hi) (by omega))
    rw [Finset.sum_congr rfl step]
    by_cases hai : a = i <;> simp [hai]
  rw [Finset.sum_congr rfl inner,
    Finset.sum_ite_eq (Finset.range N) a (fun _ => K), if_pos (Finset.mem_range.mpr ha)]

lemma sum_mirror_cells (N K : ℕ) (hK : K ≤ N - 1) (a : ℕ) (ha : a < N) :
    (∑ b in Finset.range N, ∑ i in Finset.range N, ∑ j0 in Finset.range K,
      if (a, b) = (tgt N i (j0 + 1), i) then (1 : ℕ) else 0) = K := by
  rw [Finset.sum_comm]
  have inner : ∀ i ∈ Finset.range N,
      (∑ b in Finset.range N, ∑ j0 in Finset.range K,
        if (a, b) = (tgt N i (j0 + 1), i) then (1 : ℕ) else 0)
        = ∑ j0 in Finset.range K, if a = tgt N i (j0 + 1) then (1 : ℕ) else 0 := by
    intro i hi
    rw [Finset.sum_comm]
    exact Finset.sum_congr rfl fun j0 hj0 =>
      sum_pair_snd N a i (tgt N i (j0 + 1)) (Finset.mem_range.mp hi)
  rw [Finset.sum_congr rfl inner, Finset.sum_comm]
  calc (∑ j0 in Finset.range K, ∑ i in Finset.range N,
          if a = tgt N i (j0 + 1) then (1 : ℕ) else 0)
      = ∑ j0 in Finset.range K, 1 := by
        refine Finset.sum_congr rfl fun j0 hj0 => ?_
        have hj0K := Finset.mem_range.mp hj0
        exact sum_tgt_hit N (j0 + 1) a ha (by omega) (by omega)
    _ = K := by simp

lemma lattice_expand_true (N K : ℕ) (a b : ℕ) :
    cellCount (a, b) (latticeCells N K true N)
      = (∑ i in Finset.range N, ∑ j0 in Finset.range K,
          if (a, b) = (i, tgt N i (j0 + 1)) then (1 : ℕ) else 0)
        + (∑ i in Finset.range N, ∑ j0 in Finset.range K,
          if (a, b) = (tgt N i (j0 + 1), i) then (1 : ℕ) else 0) := by
  rw [cellCount_latticeCells, ← Finset.sum_add_distrib]
  refine Finset.sum_congr rfl fun i _ => ?_
  rw [← Finset.sum_add_distrib]
  exact Finset.sum_congr rfl fun j0 _ => cellCount_block_true N i j0 (a, b)

lemma lattice_rowsum_false (N K : ℕ) (hK : K ≤ N - 1) (a : ℕ) (ha : a < N) :
    ∑ b in Finset.range N, cellCount (a, b) (latticeCells N K false N) = K := by
  have expand : ∀ b, cellCount (a, b) (latticeCells N K false N)
      = ∑ i in Finset.range N, ∑ j0 in Finset.range K,
          if (a, b) = (i, tgt N i (j0 + 1)) then (1 : ℕ) else 0 := by
    intro b
    rw [cellCount_latticeCells]
    exact Finset.sum_congr rfl fun i _ =>
      Finset.sum_congr rfl fun j0 _ => cellCount_block_false N i j0 (a, b)
  rw [Finset.sum_congr rfl fun b _ => expand b]
  exact sum_own_cells N K hK a ha

lemma lattice_rowsum_true (N K : ℕ) (hK : K ≤ N - 1) (a : ℕ) (ha : a < N) :
    ∑ b in Finset.range N, cellCount (a, b) (latticeCells N K true N) = 2 * K := by
  rw [Finset.sum_congr rfl fun b _ => lattice_expand_true N K a b,
    Finset.sum_add_distrib, sum_own_cells N K hK a ha, sum_mirror_cells N K hK a ha]
  omega

lemma lattice_symm (N K : ℕ) (a b : ℕ) :
    cellCount (a, b) (latticeCells N K true N)
      = cellCount (b, a) (latticeCells N K true N) := by
  rw [cellCount_latticeCells, cellCount_latticeCells]
  refine Finset.sum_congr rfl fun i _ => Finset.sum_congr rfl fun j0 _ => ?_
  rw [cellCount_block_true, cellCount_block_true]
  have h1 : ((a, b) = (i, tgt N i (j0 + 1))) ↔ ((b, a) = (tgt N i (j0 + 1), i)) := by
    simp only [Prod.mk.injEq]; tauto
  have h2 : ((a, b) = (tgt N i (j0 + 1), i)) ↔ ((b, a) = (i, tgt N i (j0 + 1))) := by
    simp only [Prod.mk.injEq]; tauto
  rw [if_congr h1 rfl rfl, if_congr h2 rfl rfl]
  omega

lemma lattice_diag (N K : ℕ) (und : Bool) (hK : K ≤ N - 1) (i : ℕ) :
    cellCount (i, i) (latticeCells N K und N) = 0 := by
  rw [cellCount_latticeCells]
  apply Finset.sum_eq_zero
  intro x hx
  apply Finset.sum_eq_zero
  intro j0 hj0
  have hxN := Finset.mem_range.mp hx
  have hj0K := Finset.mem_range.mp hj0
  have hne := tgt_ne_self N x (j0 + 1) hxN (by omega) (by omega)
  have hfst : ¬((i, i) = (x, tgt N x (j0 + 1))) := by
    intro h
    have h1 : i = x := congrArg Prod.fst h
    have h2 : i = tgt N x (j0 + 1) := congrArg Prod.snd h
    exact hne (by rw [← h2]; exact h1)
  have hsnd : ¬((i, i) = (tgt N x (j0 + 1), x)) := by
    intro h
    have h1 : i = tgt N x (j0 + 1) := congrArg Prod.fst h
    have h2 : i = x := congrArg Prod.snd h
    exact hne (by rw [← h1]; exact h2)
  cases und
  · rw [cellCount_block_false, if_neg hfst]
  · rw [cellCount_block_true, if_neg hfst, if_neg hsnd]
    omega

lemma ring_lattice_ok (n k : ℕ) (u : Bool) (hn : 1 ≤ n) (hk : k ≤ n - 1) :
    ring_lattice n k u
      = Except.ok ⟨n, ringLoop n (if u = true ∧ 1 < k then k / 2 else k) u (fun _ => 0)⟩ := by
  unfold ring_lattice
  rw [if_neg (by omega)]
  have h1 : ((n : ℤ)).toNat = n := by omega
  have h2 : (if u = true ∧ 1 < (k : ℤ) then (k : ℤ) / 2 else (k : ℤ)).toNat
      = (if u = true ∧ 1 < k then k / 2 else k) := by
    by_cases hu : u = true
    · by_cases hk1 : 1 < k
      · rw [if_pos ⟨hu, by exact_mod_cast hk1⟩, if_pos ⟨hu, hk1⟩]
        omega
      · rw [if_neg (fun h => hk1 (by exact_mod_cast h.2)), if_neg (fun h => hk1 h.2)]
        omega
    · rw [if_neg (fun h => hu h.1), if_neg (fun h => hu h.1)]
      omega
  show (Except.ok ⟨((n : ℤ)).toNat,
      ringLoop ((n : ℤ)).toNat
        ((if u = true ∧ 1 < (k : ℤ) then (k : ℤ) / 2 else (k : ℤ))).toNat u (fun _ => 0)⟩ :
      Except String Graph) = _
  rw [h1, h2]

lemma ring_lattice_ok_false (n k : ℕ) (hn : 1 ≤ n) (hk : k ≤ n - 1) :
    ring_lattice n k false = Except.ok ⟨n, ringLoop n k false (fun _ => 0)⟩ := by
  rw [ring_lattice_ok n k false hn hk]
  simp

lemma ring_lattice_ok_true (n k : ℕ) (hn : 1 ≤ n) (hk : k ≤ n - 1) (hk1 : 1 < k) :
    ring_lattice n k true = Except.ok ⟨n, ringLoop n (k / 2) true (fun _ => 0)⟩ := by
  rw [ring_lattice_ok n k true hn hk]
  simp [hk1]

lemma ringLoop_entry (N K : ℕ) (und : Bool) (p : ℕ × ℕ) :
    ringLoop N K und (fun _ => 0) p = (cellCount p (latticeCells N K und N) : ℚ) := by
  rw [ringLoop_apply]
  simp

/-- C5 (amended): `ring_lattice` fails exactly when `k > n - 1`, with message
"k can be at most n - 1", and returns a graph for every `k ≤ n - 1`; the check
is over the C `int` arguments, before any construction. -/
theorem ring_lattice_error_iff (n k : ℤ) (u : Bool) :
    (n - 1 < k → ring_lattice n k u = Except.error "k can be at most n - 1") ∧
    (k ≤ n - 1 → ∃ g : Graph, ring_lattice n k u = Except.ok g) := by
  constructor
  · intro h
    unfold ring_lattice
    rw [if_pos h]
  · intro h
    unfold ring_lattice
    rw [if_neg (by omega)]
    exact ⟨_, rfl⟩

theorem ring_lattice_error_iff_w :
    ring_lattice 1 5 true = Except.error "k can be at most n - 1" ∧
    ∃ g : Graph, ring_lattice 6 2 true = Except.ok g :=
  ⟨(ring_lattice_error_iff 1 5 true).1 (by decide),
   (ring_lattice_error_iff 6 2 true).2 (by decide)⟩

/-- C5 counterexample: the error message carried by the failure is
"k can be at most n - 1" (as in the source), not "k can be at most n-1"
(as quoted by the claim). -/
theorem ring_lattice_error_message_cex :
    ring_lattice 1 5 false = Except.error "k can be at most n - 1" ∧
    "k can be at most n - 1" ≠ "k can be at most n-1" := by
  refine ⟨?_, by decide⟩
  unfold ring_lattice
  rw [if_pos (by decide)]

/-- C6: for every n ≥ 1 and k ≤ n - 1, ring_lattice(n, k, undirected=false)
returns a graph whose non-zero entries are exactly the cells
(a, (a+j) mod n) with a < n and offset j in 1..k, each of weight exactly 1;
hence every vertex has out-degree (row sum) exactly k, and the non-zero
support has exactly n*k cells. -/
theorem ring_lattice_directed_exact (n k : ℕ) (hn : 1 ≤ n) (hk : k ≤ n - 1) :
    ∃ g : Graph, ring_lattice n k false = Except.ok g ∧
      (∀ a b : ℕ, g.w (a, b)
        = if a < n ∧ b ∈ (Finset.Icc 1 k).image (fun j => (a + j) % n) then 1 else 0) ∧
      (∀ a : ℕ, a < n → ∑ b in Finset.range n, g.w (a, b) = (k : ℚ)) ∧
      ((Finset.range n ×ˢ Finset.range n).filter (fun c => g.w c ≠ 0)).card = n * k := by
  refine ⟨⟨n, ringLoop n k false (fun _ => 0)⟩, ring_lattice_ok_false n k hn hk, ?_, ?_, ?_⟩
  · intro a b
    show ringLoop n k false (fun _ => 0) (a, b) = _
    rw [ringLoop_entry, lattice_entry_false n k hk a b]
    split_ifs <;> simp
  · intro a ha
    have hw : ∀ b, (⟨n, ringLoop n k false (fun _ => 0)⟩ : Graph).w (a, b)
        = (cellCount (a, b) (latticeCells n k false n) : ℚ) :=
      fun b => ringLoop_entry n k false (a, b)
    rw [Finset.sum_congr rfl fun b _ => hw b, ← Nat.cast_sum,
      lattice_rowsum_false n k hk a ha]
  · rw [Finset.card_filter, Finset.sum_product]
    have hpt : ∀ a ∈ Finset.range n, ∀ b ∈ Finset.range n,
        (if (⟨n, ringLoop n k false (fun _ => 0)⟩ : Graph).w (a, b) ≠ 0 then 1 else 0)
          = cellCount (a, b) (latticeCells n k false n) := by
      intro a ha b hb
      show (if ringLoop n k false (fun _ => 0) (a, b) ≠ 0 then 1 else 0) = _
      rw [ringLoop_entry, lattice_entry_false n k hk a b]
      split_ifs with h1 h2 h2 <;> simp_all
    rw [Finset.sum_congr rfl fun a ha =>
      Finset.sum_congr rfl fun b hb => hpt a ha b hb]
    rw [Finset.sum_congr rfl fun a ha =>
      lattice_rowsum_false n k hk a (Finset.mem_range.mp ha)]
    simp [Finset.sum_const, Finset.card_range, Nat.mul_comm]

theorem ring_lattice_directed_exact_w :
    ∃ g : Graph, ring_lattice 6 2 false = Except.ok g ∧
      (∀ a b : ℕ, g.w (a, b)
        = if a < 6 ∧ b ∈ (Finset.Icc 1 2).image (fun j => (a + j) % 6) then 1 else 0) ∧
      (∀ a : ℕ, a < 6 → ∑ b in Finset.range 6, g.w (a, b) = ((2 : ℕ) : ℚ)) ∧
      ((Finset.range 6 ×ˢ Finset.range 6).filter (fun c => g.w c ≠ 0)).card = 6 * 2 :=
  ring_lattice_directed_exact 6 2 (by decide) (by decide)

/-- C7: for 1 < k ≤ n - 1, ring_lattice(n, k, undirected=true) returns a
symmetric matrix in which every vertex has total degree (row sum) exactly
2 * floor(k / 2). -/
theorem ring_lattice_undirected_symmetric (n k : ℕ) (hk1 : 1 < k) (hk : k ≤ n - 1) :
    ∃ g : Graph, ring_lattice n k true = Except.ok g ∧
      (∀ a b : ℕ, g.w (a, b) = g.w (b, a)) ∧
      (∀ a : ℕ, a < n →
        ∑ b in Finset.range n, g.w (a, b) = ((2 * (k / 2) : ℕ) : ℚ)) := by
  have hn : 1 ≤ n := by omega
  have hK : k / 2 ≤ n - 1 := by omega
  refine ⟨⟨n, ringLoop n (k / 2) true (fun _ => 0)⟩,
    ring_lattice_ok_true n k hn hk hk1, ?_, ?_⟩
  · intro a b
    show ringLoop n (k / 2) true (fun _ => 0) (a, b)
      = ringLoop n (k / 2) true (fun _ => 0) (b, a)
    rw [ringLoop_entry, ringLoop_entry, lattice_symm n (k / 2) a b]
  · intro a ha
    have hw : ∀ b, (⟨n, ringLoop n (k / 2) true (fun _ => 0)⟩ : Graph).w (a, b)
        = (cellCount (a, b) (latticeCells n (k / 2) true n) : ℚ) :=
      fun b => ringLoop_entry n (k / 2) true (a, b)
    rw [Finset.sum_congr rfl fun b _ => hw b, ← Nat.cast_sum,
      lattice_rowsum_true n (k / 2) hK a ha]

theorem ring_lattice_undirected_symmetric_w :
    ∃ g : Graph, ring_lattice 6 3 true = Except.ok g ∧
      (∀ a b : ℕ, g.w (a, b) = g.w (b, a)) ∧
      (∀ a : ℕ, a < 6 →
        ∑ b in Finset.range 6, g.w (a, b) = ((2 * (3 / 2) : ℕ) : ℚ)) :=
  ring_lattice_undirected_symmetric 6 3 (by decide) (by decide)

/-- C10: for every n ≥ 1, k ≤ n - 1 and either undirected flag, the graph
built by ring_lattice has weight 0 at every diagonal cell: the construction
never places a self-loop. -/
theorem ring_lattice_zero_diag (n k : ℕ) (u : Bool) (hn : 1 ≤ n) (hk : k ≤ n - 1) :
    ∃ g : Graph, ring_lattice n k u = Except.ok g ∧ ∀ i : ℕ, g.w (i, i) = 0 := by
  refine ⟨⟨n, ringLoop n (if u = true ∧ 1 < k then k / 2 else k) u (fun _ => 0)⟩,
    ring_lattice_ok n k u hn hk, ?_⟩
  intro i
  show ringLoop n (if u = true ∧ 1 < k then k / 2 else k) u (fun _ => 0) (i, i) = 0
  rw [ringLoop_entry,
    lattice_diag n (if u = true ∧ 1 < k then k / 2 else k) u (by split_ifs <;> omega) i]
  simp

theorem ring_lattice_zero_diag_w :
    ∃ g : Graph, ring_lattice 6 2 true = Except.ok g ∧ ∀ i : ℕ, g.w (i, i) = 0 :=
  ring_lattice_zero_diag 6 2 true (by decide) (by decide)

/-- A stream of draws from the spec's uniform-[0,1) random source. -/
def ValidStream (σ : ℕ → ℚ) : Prop := ∀ i : ℕ, 0 ≤ σ i ∧ σ i < 1

/-- Embeds `floor( (n-1)*unif_rand() )`, the new-endpoint index draw of
`rewire_graph_cpp`, applied to one drawn value `u`. -/
def drawIdx (n : ℕ) (u : ℚ) : ℕ := (⌊((n : ℚ) - 1) * u⌋).toNat

/-- How the rejection-sampling `while` loop of `rewire_graph_cpp` ends:
a candidate satisfying all constraints, the `wcount >= n*n` repeat-limit
break, or fuel exhaustion (proved unreachable for draws in [0,1)). -/
inductive ExitKind where
  | accepted : ExitKind
  | limitHit : ExitKind
  | fuelOut : ExitKind
deriving DecidableEq

/-- Result of the rejection-sampling search: the final `newk`, the stream
position after the search, the final repeat counter, and how it ended. -/
structure SearchResult where
  newk : ℕ
  pos : ℕ
  wcount : ℕ
  exit : ExitKind

/-- Embeds the `while (conditions)` rejection-sampling loop of
`rewire_graph_cpp`: draw `newk = floor((n-1)*u)`; a redrawn (`picked`) value
bumps `wcount` and breaks out at `n*n`; a fresh value is marked `picked` and
accepted unless it violates the undirected ordering, self-loop or
multi-edge constraints. `picked` embeds `arma::uvec picked(n)`. -/
def newkSearch (n : ℕ) (se mu un : Bool) (g : ℕ × ℕ → ℚ) (newj : ℕ)
    (σ : ℕ → ℚ) : ℕ → (ℕ → Bool) → ℕ → ℕ → SearchResult
  | pos, _, wcount, 0 => ⟨0, pos, wcount, ExitKind.fuelOut⟩
  | pos, picked, wcount, fuel + 1 =>
    let newk := drawIdx n (σ pos)
    if picked newk then
      if n * n ≤ wcount + 1 then ⟨newk, pos + 1, wcount + 1, ExitKind.limitHit⟩
      else newkSearch n se mu un g newj σ (pos + 1) picked (wcount + 1) fuel
    else
      let picked2 := Function.update picked newk true
      if un ∧ newj < newk then
        newkSearch n se mu un g newj σ (pos + 1) picked2 wcount fuel
      else if se = false ∧ newj = newk then
        newkSearch n se mu un g newj σ (pos + 1) picked2 wcount fuel
      else if mu = false ∧ g (newj, newk) ≠ 0 then
        newkSearch n se mu un g newj σ (pos + 1) picked2 wcount fuel
      else ⟨newk, pos + 1, wcount, ExitKind.accepted⟩

/-- Embeds `if (both_ends) newj = floor((n-1)*unif_rand()); else newj = j;`
returning the chosen `newj` and the stream position after it. -/
def pickNewj (be : Bool) (n j pos : ℕ) (σ : ℕ → ℚ) : ℕ × ℕ :=
  if be then (drawIdx n (σ pos), pos + 1) else (j, pos)

/-- The mutation block of `rewire_graph_cpp` for one rewired edge: read
`w = newgraph(j,k)`, zero `(j,k)` (and `(k,j)` when undirected), then add
`w` at `(newj,newk)` (and at `(newk,newj)` when undirected). -/
def rewireAct (un : Bool) (g : ℕ × ℕ → ℚ) (j k newj newk : ℕ) : ℕ × ℕ → ℚ :=
  let w := g (j, k)
  let g1 := Function.update g (j, k) 0
  let g2 := if un then Function.update g1 (k, j) 0 else g1
  let g3 := Function.update g2 (newj, newk) (g2 (newj, newk) + w)
  if un then Function.update g3 (newk, newj) (g3 (newk, newj) + w) else g3

/-- One iteration of the candidate loop of `rewire_graph_cpp`, acting on the
state (working copy, stream position, ghost fallback flag): draw `u`; skip
the edge if `u > p`; skip it if undirected and `row < col`; otherwise pick
`newj`, search for `newk`, and apply the mutation block. The flag records a
search that ended without satisfying its constraints. -/
def rewireStep (n : ℕ) (p : ℚ) (be se mu un : Bool) (σ : ℕ → ℚ)
    (st : (ℕ × ℕ → ℚ) × ℕ × Bool) (e : ℕ × ℕ) : (ℕ × ℕ → ℚ) × ℕ × Bool :=
  if p < σ st.2.1 then (st.1, st.2.1 + 1, st.2.2)
  else if un ∧ e.1 < e.2 then (st.1, st.2.1 + 1, st.2.2)
  else
    let nj := pickNewj be n e.1 (st.2.1 + 1) σ
    let r := newkSearch n se mu un st.1 nj.1 σ nj.2 (fun _ => false) 0 (n * n + n + 1)
    (rewireAct un st.1 e.1 e.2 nj.1 r.newk, r.pos,
      st.2.2 || decide (r.exit ≠ ExitKind.accepted))

/-- Modelled from the spec: `sparse_indexes` lives in netdiffuser_extra.h,
which is not among the sources; per the spec it enumerates the non-zero
entries of the input graph as (row, col) pairs, computed once before any
mutation. We fix the column-major order of the sparse (CSC) storage. -/
def sparse_indexes (g : Graph) : List (ℕ × ℕ) :=
  (List.range g.n).foldr
    (fun c acc =>
      ((List.range g.n).filterMap
        (fun r => if g.w (r, c) ≠ 0 then some (r, c) else none)) ++ acc) []

/-- Embedding of `rewire_graph_cpp(graph, p, both_ends, self, multiple,
undirected)` over an injected stream of draws: clone the graph, enumerate
the original non-zero entries, and fold the per-edge step over them.
Returns the new graph together with two ghost observations: the final
stream position and the fallback flag. -/
def rewire_graph_cpp (graph : Graph) (p : ℚ) (both_ends self multiple undirected : Bool)
    (σ : ℕ → ℚ) : Graph × ℕ × Bool :=
  let n := graph.n
  let st := (sparse_indexes graph).foldl
    (rewireStep n p both_ends self multiple undirected σ) (graph.w, 0, false)
  (⟨n, st.1⟩, st.2.1, st.2.2)

lemma drawIdx_lt (n : ℕ) (u : ℚ) (hn : 1 ≤ n) (_h0 : 0 ≤ u) (h1 : u < 1) :
    drawIdx n u < n := by
  have hn0 : (0 : ℚ) ≤ (n : ℚ) - 1 := by
    have : (1 : ℚ) ≤ (n : ℚ) := by exact_mod_cast hn
    linarith
  have hx : ((n : ℚ) - 1) * u < (n : ℚ) := by
    have hle : ((n : ℚ) - 1) * u ≤ ((n : ℚ) - 1) * 1 :=
      mul_le_mul_of_nonneg_left (le_of_lt h1) hn0
    linarith
  have hfl : ⌊((n : ℚ) - 1) * u⌋ < (n : ℤ) := by
    rw [Int.floor_lt]
    exact_mod_cast hx
  unfold drawIdx
  omega

lemma drawIdx_le_sub_two (n : ℕ) (u : ℚ) (hn : 2 ≤ n) (_h0 : 0 ≤ u) (h1 : u < 1) :
    drawIdx n u ≤ n - 2 := by
  have hn1 : (0 : ℚ) < (n : ℚ) - 1 := by
    have : (2 : ℚ) ≤ (n : ℚ) := by exact_mod_cast hn
    linarith
  have hx : ((n : ℚ) - 1) * u < (n : ℚ) - 1 := by
    have := mul_lt_mul_of_pos_left h1 hn1
    linarith
  have hfl : ⌊((n : ℚ) - 1) * u⌋ < (n : ℤ) - 1 := by
    rw [Int.floor_lt]
    push_cast
    exact hx
  unfold drawIdx
  omega

/-- C2 (amended): every new-endpoint draw of the rewiring is
`floor((n-1) * u)` with `u` in [0,1): its value always lies in [0, n-2],
and every index in [0, n-2] is attained (at `u = m/(n-1)`), so the draw
ranges over [0, n-2] and the last vertex `n-1` is never a possible new
endpoint. -/
theorem drawIdx_range_exact (n : ℕ) (hn : 2 ≤ n) :
    (∀ u : ℚ, 0 ≤ u → u < 1 → drawIdx n u ≤ n - 2) ∧
    (∀ m : ℕ, m ≤ n - 2 →
      (0 ≤ (m : ℚ) / ((n : ℚ) - 1) ∧ (m : ℚ) / ((n : ℚ) - 1) < 1 ∧
        drawIdx n ((m : ℚ) / ((n : ℚ) - 1)) = m)) := by
  have hn1 : (0 : ℚ) < (n : ℚ) - 1 := by
    have : (2 : ℚ) ≤ (n : ℚ) := by exact_mod_cast hn
    linarith
  constructor
  · exact fun u h0 h1 => drawIdx_le_sub_two n u hn h0 h1
  · intro m hm
    have hmlt : (m : ℚ) < (n : ℚ) - 1 := by
      have h1 : (m : ℚ) ≤ (n : ℚ) - 2 := by
        have h2 : ((n - 2 : ℕ) : ℚ) = (n : ℚ) - 2 := by
          rw [Nat.cast_sub hn]; norm_num
        rw [← h2]
        exact_mod_cast hm
      linarith
    refine ⟨div_nonneg (Nat.cast_nonneg m) (le_of_lt hn1), ?_, ?_⟩
    · rw [div_lt_one hn1]
      exact hmlt
    · unfold drawIdx
      rw [← mul_div_assoc, mul_div_cancel_left₀ _ (ne_of_gt hn1), Int.floor_natCast]
      omega

theorem drawIdx_range_exact_w :
    (∀ u : ℚ, 0 ≤ u → u < 1 → drawIdx 3 u ≤ 3 - 2) ∧
    (∀ m : ℕ, m ≤ 3 - 2 →
      (0 ≤ (m : ℚ) / ((3 : ℚ) - 1) ∧ (m : ℚ) / ((3 : ℚ) - 1) < 1 ∧
        drawIdx 3 ((m : ℚ) / ((3 : ℚ) - 1)) = m)) :=
  drawIdx_range_exact 3 (by decide)

/-- C2 counterexample: for n = 2 the claim says every vertex, including
n-1 = 1, is a possible new endpoint; but no draw u in [0,1) makes
`floor((n-1)*u)` equal to 1. -/
theorem drawIdx_last_vertex_cex :
    ¬ ∃ u : ℚ, 0 ≤ u ∧ u < 1 ∧ drawIdx 2 u = 1 := by
  rintro ⟨u, h0, h1, he⟩
  have h2 : drawIdx 2 u ≤ 0 := drawIdx_le_sub_two 2 u (by decide) h0 h1
  omega

/-- Number of marked entries of the `picked` vector below `n`. -/
def pcount (n : ℕ) (picked : ℕ → Bool) : ℕ :=
  ((Finset.range n).filter (fun i => picked i = true)).card

lemma pcount_le (n : ℕ) (picked : ℕ → Bool) : pcount n picked ≤ n := by
  unfold pcount
  calc ((Finset.range n).filter (fun i => picked i = true)).card
      ≤ (Finset.range n).card := Finset.card_filter_le _ _
    _ = n := Finset.card_range n

lemma pcount_false (n : ℕ) : pcount n (fun _ => false) = 0 := by
  unfold pcount
  simp

lemma pcount_update (n newk : ℕ) (picked : ℕ → Bool) (hk : newk < n)
    (hp : ¬ picked newk = true) :
    pcount n (Function.update picked newk true) = pcount n picked + 1 := by
  have hset : (Finset.range n).filter (fun i => Function.update picked newk true i = true)
      = insert newk ((Finset.range n).filter (fun i => picked i = true)) := by
    ext x
    simp only [Finset.mem_filter, Finset.mem_insert, Finset.mem_range]
    by_cases hx : x = newk
    · subst hx
      simp [Function.update_same, hk]
    · simp [Function.update_noteq hx, hx]
  unfold pcount
  rw [hset, Finset.card_insert_of_not_mem]
  simp only [Finset.mem_filter, Finset.mem_range, not_and]
  intro _
  exact hp

lemma search_newk_lt (n : ℕ) (se mu un : Bool) (g : ℕ × ℕ → ℚ) (newj : ℕ)
    (σ : ℕ → ℚ) (hσ : ValidStream σ) (hn : 1 ≤ n) :
    ∀ (fuel pos : ℕ) (picked : ℕ → Bool) (wcount : ℕ),
      (newkSearch n se mu un g newj σ pos picked wcount fuel).newk < n := by
  intro fuel
  induction fuel with
  | zero =>
    intro pos picked wcount
    simpa [newkSearch] using hn
  | succ fuel ih =>
    intro pos picked wcount
    have hd := drawIdx_lt n (σ pos) hn (hσ pos).1 (hσ pos).2
    simp only [newkSearch]
    split_ifs <;> first | exact hd | exact ih ..

lemma search_accepted (n : ℕ) (se mu un : Bool) (g : ℕ × ℕ → ℚ) (newj : ℕ)
    (σ : ℕ → ℚ) :
    ∀ (fuel pos : ℕ) (picked : ℕ → Bool) (wcount : ℕ) (r : SearchResult),
      newkSearch n se mu un g newj σ pos picked wcount fuel = r →
      r.exit = ExitKind.accepted →
      (un = true → r.newk ≤ newj) ∧ (se = false → newj ≠ r.newk) ∧
        (mu = false → g (newj, r.newk) = 0) := by
  intro fuel
  induction fuel with
  | zero =>
    intro pos picked wcount r hr hex
    rw [← hr] at hex
    simp [newkSearch] at hex
  | succ fuel ih =>
    intro pos picked wcount r hr hex
    simp only [newkSearch] at hr
    split_ifs at hr with h1 h2 h3 h4 h5
    · rw [← hr] at hex
      simp at hex
    · exact ih _ _ _ r hr hex
    · exact ih _ _ _ r hr hex
    · exact ih _ _ _ r hr hex
    · exact ih _ _ _ r hr hex
    · rw [← hr]
      refine ⟨?_, ?_, ?_⟩
      · intro hun
        have := fun h => h3 ⟨hun, h⟩
        simpa using Nat.le_of_not_lt (by simpa using this)
      · intro hse
        intro hj
        exact h4 ⟨hse, hj⟩
      · intro hmu
        by_contra hg
        exact h5 ⟨hmu, hg⟩

lemma search_no_fuelOut (n : ℕ) (se mu un : Bool) (g : ℕ × ℕ → ℚ) (newj : ℕ)
    (σ : ℕ → ℚ) (hσ : ValidStream σ) (hn : 1 ≤ n) :
    ∀ (fuel pos : ℕ) (picked : ℕ → Bool) (wcount : ℕ),
      wcount < n * n →
      n * n + n + 1 ≤ fuel + wcount + pcount n picked →
      (newkSearch n se mu un g newj σ pos picked wcount fuel).exit
        ≠ ExitKind.fuelOut := by
  intro fuel
  induction fuel with
  | zero =>
    intro pos picked wcount hw hf
    exfalso
    have hpc := pcount_le n picked
    omega
  | succ fuel ih =>
    intro pos picked wcount hw hf
    have hd := drawIdx_lt n (σ pos) hn (hσ pos).1 (hσ pos).2
    simp only [newkSearch]
    split_ifs with h1 h2 h3 h4 h5
    · simp
    · exact ih _ _ _ (by omega) (by omega)
    · have hpc := pcount_update n (drawIdx n (σ pos)) picked hd h1
      exact ih _ _ _ hw (by omega)
    · have hpc := pcount_update n (drawIdx n (σ pos)) picked hd h1
      exact ih _ _ _ hw (by omega)
    · have hpc := pcount_update n (drawIdx n (σ pos)) picked hd h1
      exact ih _ _ _ hw (by omega)
    · simp

lemma search_limit_wcount (n : ℕ) (se mu un : Bool) (g : ℕ × ℕ → ℚ) (newj : ℕ)
    (σ : ℕ → ℚ) :
    ∀ (fuel pos : ℕ) (picked : ℕ → Bool) (wcount : ℕ) (r : SearchResult),
      wcount < n * n →
      newkSearch n se mu un g newj σ pos picked wcount fuel = r →
      r.exit = ExitKind.limitHit → r.wcount = n * n := by
  intro fuel
  induction fuel with
  | zero =>
    intro pos picked wcount r hw hr hex
    rw [← hr] at hex
    simp [newkSearch] at hex
  | succ fuel ih =>
    intro pos picked wcount r hw hr hex
    simp only [newkSearch] at hr
    split_ifs at hr with h1 h2 h3 h4 h5
    · rw [← hr]
      show wcount + 1 = n * n
      omega
    · exact ih _ _ _ r (by omega) hr hex
    · exact ih _ _ _ r hw hr hex
    · exact ih _ _ _ r hw hr hex
    · exact ih _ _ _ r hw hr hex
    · rw [← hr] at hex
      simp at hex

/-- C8: for every stream of draws in [0,1) and n ≥ 1, the rejection-sampling
search of `rewire_graph_cpp` (run with fuel n*n + n + 1, which this theorem
shows is never exhausted) terminates either with a candidate satisfying all
configured constraints (accepted exit) or by the repeat-limit break with the
repeat counter at exactly n*n; in the latter case `rewireStep` still rewires
the edge to the last-drawn pair, as its definition applies `rewireAct` to
`r.newk` unconditionally. -/
theorem newk_search_terminates (n : ℕ) (se mu un : Bool) (g : ℕ × ℕ → ℚ)
    (newj pos : ℕ) (σ : ℕ → ℚ) (hσ : ValidStream σ) (hn : 1 ≤ n) :
    ∀ r : SearchResult,
      newkSearch n se mu un g newj σ pos (fun _ => false) 0 (n * n + n + 1) = r →
      r.exit ≠ ExitKind.fuelOut ∧
      (r.exit = ExitKind.accepted →
        (un = true → r.newk ≤ newj) ∧ (se = false → newj ≠ r.newk) ∧
          (mu = false → g (newj, r.newk) = 0)) ∧
      (r.exit = ExitKind.limitHit → r.wcount = n * n) := by
  intro r hr
  have hnn : 0 < n * n := Nat.mul_pos (by omega) (by omega)
  refine ⟨?_, fun hex => search_accepted n se mu un g newj σ _ _ _ _ r hr hex,
    fun hex => search_limit_wcount n se mu un g newj σ _ _ _ _ r hnn hr hex⟩
  rw [← hr]
  exact search_no_fuelOut n se mu un g newj σ hσ hn _ _ _ _ hnn
    (by rw [pcount_false])

/-- The all-zeros stream, used as a concrete witness stream. -/
def sigZero : ℕ → ℚ := fun _ => 0

lemma validStream_sigZero : ValidStream sigZero :=
  fun _ => ⟨le_refl 0, by norm_num [sigZero]⟩

theorem newk_search_terminates_w :
    (newkSearch 2 false false false (fun _ => 0) 0 sigZero 0 (fun _ => false) 0
        (2 * 2 + 2 + 1)).exit ≠ ExitKind.fuelOut ∧
    ((newkSearch 2 false false false (fun _ => 0) 0 sigZero 0 (fun _ => false) 0
        (2 * 2 + 2 + 1)).exit = ExitKind.accepted →
      (false = true →
        (newkSearch 2 false false false (fun _ => 0) 0 sigZero 0 (fun _ => false) 0
          (2 * 2 + 2 + 1)).newk ≤ 0) ∧
      (false = false →
        0 ≠ (newkSearch 2 false false false (fun _ => 0) 0 sigZero 0 (fun _ => false) 0
          (2 * 2 + 2 + 1)).newk) ∧
      (false = false →
        (fun (_ : ℕ × ℕ) => (0 : ℚ))
          (0, (newkSearch 2 false false false (fun _ => 0) 0 sigZero 0 (fun _ => false) 0
            (2 * 2 + 2 + 1)).newk) = 0)) ∧
    ((newkSearch 2 false false false (fun _ => 0) 0 sigZero 0 (fun _ => false) 0
        (2 * 2 + 2 + 1)).exit = ExitKind.limitHit →
      (newkSearch 2 false false false (fun _ => 0) 0 sigZero 0 (fun _ => false) 0
        (2 * 2 + 2 + 1)).wcount = 2 * 2) :=
  newk_search_terminates 2 false false false (fun _ => 0) 0 0 sigZero
    validStream_sigZero (by decide) _ rfl

lemma cell_mem (n a b : ℕ) (ha : a < n) (hb : b < n) :
    ((a, b) : ℕ × ℕ) ∈ Finset.range n ×ˢ Finset.range n :=
  Finset.mem_product.mpr ⟨Finset.mem_range.mpr ha, Finset.mem_range.mpr hb⟩

lemma totN_update (n : ℕ) (w : ℕ × ℕ → ℚ) (c : ℕ × ℕ) (v : ℚ)
    (hc : c ∈ Finset.range n ×ˢ Finset.range n) :
    totN n (Function.update w c v) = totN n w + v - w c := by
  unfold totN
  rw [Finset.sum_update_of_mem hc,
    Finset.sum_eq_sum_diff_singleton_add hc w]
  ring

lemma rewireAct_total (n : ℕ) (un : Bool) (g : ℕ × ℕ → ℚ) (j k newj newk : ℕ)
    (hj : j < n) (hk : k < n) (hnj : newj < n) (hnk : newk < n)
    (hun : un = true → (j ≠ k ∧ Symm g)) :
    totN n (rewireAct un g j k newj newk) = totN n g := by
  unfold rewireAct
  cases un with
  | false =>
    simp only [Bool.false_eq_true, if_false]
    rw [totN_update n _ (newj, newk) _ (cell_mem n newj newk hnj hnk),
      totN_update n g (j, k) 0 (cell_mem n j k hj hk)]
    ring
  | true =>
    have hjk : j ≠ k := (hun rfl).1
    have hsym : Symm g := (hun rfl).2
    have hne : ((k, j) : ℕ × ℕ) ≠ (j, k) := fun hh => hjk (congrArg Prod.snd hh)
    simp only [if_true]
    rw [totN_update n _ (newk, newj) _ (cell_mem n newk newj hnk hnj),
      totN_update n _ (newj, newk) _ (cell_mem n newj newk hnj hnk),
      totN_update n _ (k, j) 0 (cell_mem n k j hk hj),
      totN_update n g (j, k) 0 (cell_mem n j k hj hk),
      Function.update_noteq hne, hsym k j]
    ring

lemma update2_zero_apply (w : ℕ × ℕ → ℚ) (cp dp x : ℕ × ℕ) :
    Function.update (Function.update w cp 0) dp 0 x
      = if x = dp then 0 else if x = cp then 0 else w x := by
  by_cases h1 : x = dp
  · subst h1
    rw [Function.update_same, if_pos rfl]
  · rw [Function.update_noteq h1, if_neg h1]
    by_cases h2 : x = cp
    · subst h2
      rw [Function.update_same, if_pos rfl]
    · rw [Function.update_noteq h2, if_neg h2]

lemma symm_zero_pair (w : ℕ × ℕ → ℚ) (hw : Symm w) (c d : ℕ) :
    Symm (Function.update (Function.update w (c, d) 0) (d, c) 0) := by
  intro a b
  rw [update2_zero_apply, update2_zero_apply]
  have e1 : ((a, b) = ((d, c) : ℕ × ℕ)) ↔ ((b, a) = ((c, d) : ℕ × ℕ)) := by
    simp only [Prod.mk.injEq]; tauto
  have e2 : ((a, b) = ((c, d) : ℕ × ℕ)) ↔ ((b, a) = ((d, c) : ℕ × ℕ)) := by
    simp only [Prod.mk.injEq]; tauto
  by_cases p1 : (a, b) = ((d, c) : ℕ × ℕ) <;> by_cases p2 : (a, b) = ((c, d) : ℕ × ℕ)
  · rw [if_pos p1, if_pos (e2.mp p2)]
  · rw [if_pos p1, if_neg (fun hh => p2 (e2.mpr hh)), if_pos (e1.mp p1)]
  · rw [if_neg p1, if_pos (e2.mp p2), if_pos p2]
  · rw [if_neg p1, if_neg p2, if_neg (fun hh => p2 (e2.mpr hh)),
      if_neg (fun hh => p1 (e1.mpr hh))]
    exact hw a b

lemma update2_add_apply (w : ℕ × ℕ → ℚ) (c d : ℕ) (v : ℚ) (hcd : c ≠ d)
    (x : ℕ × ℕ) :
    Function.update (Function.update w (c, d) (w (c, d) + v)) (d, c)
      ((Function.update w (c, d) (w (c, d) + v)) (d, c) + v) x
      = if x = (d, c) then w (d, c) + v else if x = (c, d) then w (c, d) + v
        else w x := by
  have hdc : ((d, c) : ℕ × ℕ) ≠ (c, d) := fun hh => hcd (congrArg Prod.snd hh)
  by_cases h1 : x = (d, c)
  · subst h1
    rw [Function.update_same, Function.update_noteq hdc, if_pos rfl]
  · rw [Function.update_noteq h1, if_neg h1]
    by_cases h2 : x = (c, d)
    · subst h2
      rw [Function.update_same, if_pos rfl]
    · rw [Function.update_noteq h2, if_neg h2]

lemma symm_add_pair (w : ℕ × ℕ → ℚ) (hw : Symm w) (c d : ℕ) (v : ℚ) :
    Symm (Function.update (Function.update w (c, d) (w (c, d) + v)) (d, c)
      ((Function.update w (c, d) (w (c, d) + v)) (d, c) + v)) := by
  by_cases hcd : c = d
  · subst hcd
    intro a b
    by_cases h1 : ((a, b) : ℕ × ℕ) = (c, c)
    · have h2 : ((b, a) : ℕ × ℕ) = (c, c) := by
        rw [Prod.mk.injEq] at h1 ⊢
        exact ⟨h1.2, h1.1⟩
      rw [h1, h2]
    · have h2 : ¬ ((b, a) : ℕ × ℕ) = (c, c) := by
        intro hh
        apply h1
        rw [Prod.mk.injEq] at hh ⊢
        exact ⟨hh.2, hh.1⟩
      rw [Function.update_noteq h1, Function.update_noteq h2,
        Function.update_noteq h1, Function.update_noteq h2]
      exact hw a b
  · intro a b
    rw [update2_add_apply w c d v hcd, update2_add_apply w c d v hcd]
    have e1 : ((a, b) = ((d, c) : ℕ × ℕ)) ↔ ((b, a) = ((c, d) : ℕ × ℕ)) := by
      simp only [Prod.mk.injEq]; tauto
    have e2 : ((a, b) = ((c, d) : ℕ × ℕ)) ↔ ((b, a) = ((d, c) : ℕ × ℕ)) := by
      simp only [Prod.mk.injEq]; tauto
    have hsym : w (d, c) = w (c, d) := hw d c
    by_cases p1 : (a, b) = ((d, c) : ℕ × ℕ) <;> by_cases p2 : (a, b) = ((c, d) : ℕ × ℕ)
    · exfalso
      apply hcd
      have q1 : a = d := congrArg Prod.fst p1
      have q2 : a = c := congrArg Prod.fst p2
      omega
    · rw [if_pos p1, if_neg (fun hh => p2 (e2.mpr hh)), if_pos (e1.mp p1), hsym]
    · rw [if_neg p1, if_pos (e2.mp p2), if_pos p2, hsym]
    · rw [if_neg p1, if_neg p2, if_neg (fun hh => p2 (e2.mpr hh)),
        if_neg (fun hh => p1 (e1.mpr hh))]
      exact hw a b

lemma rewireAct_symm (g : ℕ × ℕ → ℚ) (j k newj newk : ℕ)
    (hs : Symm g) :
    Symm (rewireAct true g j k newj newk) := by
  unfold rewireAct
  simp only [if_true]
  exact symm_add_pair _ (symm_zero_pair g hs j k) newj newk (g (j, k))

lemma rewireAct_diag (un : Bool) (g : ℕ × ℕ → ℚ) (j k newj newk : ℕ)
    (hd : ∀ i : ℕ, g (i, i) = 0) (hne : newj ≠ newk) :
    ∀ i : ℕ, rewireAct un g j k newj newk (i, i) = 0 := by
  intro i
  have hi3 : ((i, i) : ℕ × ℕ) ≠ (newj, newk) := by
    intro hh
    rw [Prod.mk.injEq] at hh
    exact hne (by omega)
  have hi4 : ((i, i) : ℕ × ℕ) ≠ (newk, newj) := by
    intro hh
    rw [Prod.mk.injEq] at hh
    exact hne (by omega)
  unfold rewireAct
  cases un with
  | false =>
    simp only [Bool.false_eq_true, if_false]
    rw [Function.update_noteq hi3]
    by_cases h1 : ((i, i) : ℕ × ℕ) = (j, k)
    · rw [h1, Function.update_same]
    · rw [Function.update_noteq h1]
      exact hd i
  | true =>
    simp only [if_true]
    rw [Function.update_noteq hi4, Function.update_noteq hi3,
      update2_zero_apply]
    split_ifs <;> first | rfl | exact hd i

lemma mem_foldr_append (f : ℕ → List (ℕ × ℕ)) (L : List ℕ) (x : ℕ × ℕ)
    (hx : x ∈ L.foldr (fun c acc => f c ++ acc) []) : ∃ c ∈ L, x ∈ f c := by
  induction L with
  | nil => simp at hx
  | cons c L ih =>
    simp only [List.foldr_cons, List.mem_append] at hx
    rcases hx with h | h
    · exact ⟨c, List.mem_cons_self c L, h⟩
    · obtain ⟨c2, hc2, h2⟩ := ih h
      exact ⟨c2, List.mem_cons_of_mem c hc2, h2⟩

lemma mem_sparse_indexes (g : Graph) (e : ℕ × ℕ) (he : e ∈ sparse_indexes g) :
    e.1 < g.n ∧ e.2 < g.n ∧ g.w e ≠ 0 := by
  unfold sparse_indexes at he
  obtain ⟨c, hc, he2⟩ := mem_foldr_append _ _ _ he
  rw [List.mem_filterMap] at he2
  obtain ⟨r, hr, hsome⟩ := he2
  by_cases hw : g.w (r, c) ≠ 0
  · rw [if_pos hw] at hsome
    injection hsome with h1
    subst h1
    exact ⟨List.mem_range.mp hr, List.mem_range.mp hc, hw⟩
  · rw [if_neg hw] at hsome
    exact absurd hsome (by simp)

lemma rewireStep_eq (n : ℕ) (p : ℚ) (be se mu un : Bool) (σ : ℕ → ℚ)
    (st : (ℕ × ℕ → ℚ) × ℕ × Bool) (e : ℕ × ℕ) :
    rewireStep n p be se mu un σ st e = (st.1, st.2.1 + 1, st.2.2) ∨
    (¬ p < σ st.2.1 ∧ ¬ (un = true ∧ e.1 < e.2) ∧
      rewireStep n p be se mu un σ st e
        = (rewireAct un st.1 e.1 e.2 (pickNewj be n e.1 (st.2.1 + 1) σ).1
            (newkSearch n se mu un st.1 (pickNewj be n e.1 (st.2.1 + 1) σ).1 σ
              (pickNewj be n e.1 (st.2.1 + 1) σ).2 (fun _ => false) 0
              (n * n + n + 1)).newk,
          (newkSearch n se mu un st.1 (pickNewj be n e.1 (st.2.1 + 1) σ).1 σ
            (pickNewj be n e.1 (st.2.1 + 1) σ).2 (fun _ => false) 0
            (n * n + n + 1)).pos,
          st.2.2 || decide ((newkSearch n se mu un st.1
              (pickNewj be n e.1 (st.2.1 + 1) σ).1 σ
              (pickNewj be n e.1 (st.2.1 + 1) σ).2 (fun _ => false) 0
              (n * n + n + 1)).exit ≠ ExitKind.accepted))) := by
  unfold rewireStep
  split_ifs with h1 h2
  · left; rfl
  · left; rfl
  · right; exact ⟨h1, h2, rfl⟩

lemma rewireStep_flag_true (n : ℕ) (p : ℚ) (be se mu un : Bool) (σ : ℕ → ℚ)
    (st : (ℕ × ℕ → ℚ) × ℕ × Bool) (e : ℕ × ℕ) (h : st.2.2 = true) :
    (rewireStep n p be se mu un σ st e).2.2 = true := by
  rcases rewireStep_eq n p be se mu un σ st e with heq | ⟨-, -, heq⟩ <;>
    rw [heq] <;> simp [h]

lemma foldl_flag_true (n : ℕ) (p : ℚ) (be se mu un : Bool) (σ : ℕ → ℚ)
    (L : List (ℕ × ℕ)) :
    ∀ st : (ℕ × ℕ → ℚ) × ℕ × Bool, st.2.2 = true →
      (L.foldl (rewireStep n p be se mu un σ) st).2.2 = true := by
  induction L with
  | nil => intro st h; simpa using h
  | cons e L ih =>
    intro st h
    exact ih _ (rewireStep_flag_true n p be se mu un σ st e h)

lemma rewireStep_diag (n : ℕ) (p : ℚ) (be mu un : Bool) (σ : ℕ → ℚ)
    (st : (ℕ × ℕ → ℚ) × ℕ × Bool) (e : ℕ × ℕ)
    (hd : ∀ i : ℕ, st.1 (i, i) = 0)
    (hf : (rewireStep n p be false mu un σ st e).2.2 = false) :
    ∀ i : ℕ, (rewireStep n p be false mu un σ st e).1 (i, i) = 0 := by
  rcases rewireStep_eq n p be false mu un σ st e with heq | ⟨-, -, heq⟩
  · rw [heq]
    exact hd
  · rw [heq] at hf ⊢
    have hacc : (newkSearch n false mu un st.1 (pickNewj be n e.1 (st.2.1 + 1) σ).1 σ
        (pickNewj be n e.1 (st.2.1 + 1) σ).2 (fun _ => false) 0
        (n * n + n + 1)).exit = ExitKind.accepted := by
      have h3 : decide ((newkSearch n false mu un st.1
          (pickNewj be n e.1 (st.2.1 + 1) σ).1 σ
          (pickNewj be n e.1 (st.2.1 + 1) σ).2 (fun _ => false) 0
          (n * n + n + 1)).exit ≠ ExitKind.accepted) = false :=
        (Bool.or_eq_false_iff.mp hf).2
    
      have h4 := of_decide_eq_false h3
      exact not_not.mp h4
    have hnene : (pickNewj be n e.1 (st.2.1 + 1) σ).1
        ≠ (newkSearch n false mu un st.1 (pickNewj be n e.1 (st.2.1 + 1) σ).1 σ
            (pickNewj be n e.1 (st.2.1 + 1) σ).2 (fun _ => false) 0
            (n * n + n + 1)).newk :=
      (search_accepted n false mu un st.1 _ σ _ _ _ _ _ rfl hacc).2.1 rfl
    exact rewireAct_diag un st.1 e.1 e.2 _ _ hd hnene

lemma foldl_diag (n : ℕ) (p : ℚ) (be mu un : Bool) (σ : ℕ → ℚ)
    (L : List (ℕ × ℕ)) :
    ∀ st : (ℕ × ℕ → ℚ) × ℕ × Bool,
      (∀ i : ℕ, st.1 (i, i) = 0) →
      (L.foldl (rewireStep n p be false mu un σ) st).2.2 = false →
      ∀ i : ℕ, (L.foldl (rewireStep n p be false mu un σ) st).1 (i, i) = 0 := by
  induction L with
  | nil =>
    intro st hd hf
    simpa using hd
  | cons e L ih =>
    intro st hd hf
    rw [List.foldl_cons] at hf ⊢
    have hstep : (rewireStep n p be false mu un σ st e).2.2 = false := by
      cases hb : (rewireStep n p be false mu un σ st e).2.2 with
      | false => rfl
      | true =>
        have h2 := foldl_flag_true n p be false mu un σ L _ hb
        rw [h2] at hf
        exact Bool.noConfusion hf
    exact ih _ (rewireStep_diag n p be mu un σ st e hd hstep) hf

/-- C3 (amended): with allowSelfLoops=false, if the input graph has zero
diagonal and no rejection-sampling search ended without satisfying its
constraints (the returned fallback flag is false), the returned graph has
weight 0 at every diagonal cell. (Two counterexamples force the amendments:
a pre-existing diagonal entry survives when its edge is not selected, and
the repeat-limit fallback can itself create a self-loop.) -/
theorem rewire_no_self_loops (g : Graph) (p : ℚ) (be mu un : Bool) (σ : ℕ → ℚ)
    (hdiag : ∀ i : ℕ, g.w (i, i) = 0)
    (hfb : (rewire_graph_cpp g p be false mu un σ).2.2 = false) :
    ∀ i : ℕ, (rewire_graph_cpp g p be false mu un σ).1.w (i, i) = 0 := by
  intro i
  have hfb2 : ((sparse_indexes g).foldl (rewireStep g.n p be false mu un σ)
      (g.w, 0, false)).2.2 = false := hfb
  exact foldl_diag g.n p be mu un σ (sparse_indexes g) (g.w, 0, false)
    hdiag hfb2 i

/-- Concrete graph on 3 vertices with the single directed edge (1,2). -/
def gEdge12 : Graph := ⟨3, fun c => if c = (1, 2) then 1 else 0⟩

/-- The constant-1/2 stream, used as a concrete witness stream. -/
def sigHalf : ℕ → ℚ := fun _ => 1 / 2

lemma validStream_sigHalf : ValidStream sigHalf :=
  fun _ => ⟨by norm_num [sigHalf], by norm_num [sigHalf]⟩

theorem rewire_no_self_loops_w :
    (rewire_graph_cpp gEdge12 0 false false false false sigHalf).1.w (1, 1) = 0 :=
  rewire_no_self_loops gEdge12 0 false false false sigHalf
    (fun i => if_neg (fun h => by rw [Prod.mk.injEq] at h; omega))
    (by norm_num [rewire_graph_cpp, sparse_indexes, rewireStep, gEdge12, sigHalf,
      List.range_succ, List.filterMap_cons, List.filterMap_nil]) 1

/-- Concrete graph on 2 vertices with the single entry (0,1). -/
def gEdge01 : Graph := ⟨2, fun c => if c = (0, 1) then 1 else 0⟩

/-- C3 counterexample: n = 2, single edge (0,1), p = 1, allowSelfLoops=false,
allowMultiEdges=false, all draws 0. The only drawable newk is 0 = newj; it is
rejected as a self-loop, every redraw is a repeat, and at the n² repeat limit
the fallback rewires the edge to (0,0) anyway: the returned graph has weight
1 on the diagonal although the input diagonal is zero. -/
theorem rewire_self_loop_cex :
    (rewire_graph_cpp gEdge01 1 false false false false sigZero).1.w (0, 0) = 1 ∧
    gEdge01.w (0, 0) = 0 ∧ (1 : ℚ) ≠ 0 := by
  refine ⟨?_, ?_, by norm_num⟩
  · norm_num [rewire_graph_cpp, sparse_indexes, rewireStep, newkSearch, rewireAct,
      pickNewj, drawIdx, sigZero, gEdge01, Function.update, List.range_succ,
      List.filterMap_cons, List.filterMap_nil]
  · norm_num [gEdge01, Prod.ext_iff]

lemma foldl_p_zero (n : ℕ) (be se mu un : Bool) (σ : ℕ → ℚ)
    (hσ : ∀ i : ℕ, 0 < σ i) (L : List (ℕ × ℕ)) :
    ∀ st : (ℕ × ℕ → ℚ) × ℕ × Bool,
      (L.foldl (rewireStep n 0 be se mu un σ) st).1 = st.1 := by
  induction L with
  | nil => intro st; rfl
  | cons e L ih =>
    intro st
    rw [List.foldl_cons, ih]
    unfold rewireStep
    rw [if_pos (hσ st.2.1)]

/-- C4 (amended): when every draw of the random source is strictly positive
(a (0,1) source, as R's unif_rand in fact is), rewiring with p = 0 never
selects an edge, and the returned graph has exactly the entries of the
input. A draw of exactly 0 — allowed by the spec's [0,1) interface — defeats
the `unif_rand() > p` test at p = 0 and rewires the edge (counterexample). -/
theorem rewire_p_zero_identity (g : Graph) (be se mu un : Bool) (σ : ℕ → ℚ)
    (hσ : ∀ i : ℕ, 0 < σ i) :
    ∀ c : ℕ × ℕ, (rewire_graph_cpp g 0 be se mu un σ).1.w c = g.w c := by
  intro c
  show ((sparse_indexes g).foldl (rewireStep g.n 0 be se mu un σ)
      (g.w, 0, false)).1 c = g.w c
  rw [foldl_p_zero g.n be se mu un σ hσ (sparse_indexes g) (g.w, 0, false)]

theorem rewire_p_zero_identity_w :
    (rewire_graph_cpp gEdge01 0 false false false false sigHalf).1.w (0, 1)
      = gEdge01.w (0, 1) :=
  rewire_p_zero_identity gEdge01 false false false false sigHalf
    (fun _ => by norm_num [sigHalf]) (0, 1)

/-- C4 counterexample: with p = 0 and a draw of exactly 0 (legal for a
[0,1) source), the edge (0,1) of gEdge01 is selected (0 > 0 is false) and
rewired — its weight ends up on (0,0) via the repeat-limit fallback — so
the output is not equal to the input. -/
theorem rewire_p_zero_cex :
    (rewire_graph_cpp gEdge01 0 false false false false sigZero).1.w (0, 1) = 0 ∧
    gEdge01.w (0, 1) = 1 ∧ (0 : ℚ) ≠ 1 := by
  refine ⟨?_, ?_, by norm_num⟩
  · norm_num [rewire_graph_cpp, sparse_indexes, rewireStep, newkSearch, rewireAct,
      pickNewj, drawIdx, sigZero, gEdge01, Function.update, List.range_succ,
      List.filterMap_cons, List.filterMap_nil]
  · norm_num [gEdge01]

/-- C9 (amended): for an undirected rewiring, the p-draw is consumed for
every candidate entry, including a mirror entry with row < col: processing
such a candidate advances the stream position by exactly one (the draw made
before the skip test) and leaves the working graph and flag unchanged. -/
theorem rewire_mirror_skip_after_draw (n : ℕ) (p : ℚ) (be se mu : Bool)
    (σ : ℕ → ℚ) (g : ℕ × ℕ → ℚ) (pos : ℕ) (fb : Bool) (j k : ℕ) (hjk : j < k) :
    rewireStep n p be se mu true σ (g, pos, fb) (j, k) = (g, pos + 1, fb) := by
  unfold rewireStep
  by_cases h1 : p < σ pos
  · rw [if_pos h1]
  · rw [if_neg h1, if_pos ⟨rfl, hjk⟩]

theorem rewire_mirror_skip_after_draw_w :
    rewireStep 2 (1 / 2) false false false true sigZero (gEdge01.w, 0, false) (0, 1)
      = (gEdge01.w, 0 + 1, false) :=
  rewire_mirror_skip_after_draw 2 (1 / 2) false false false sigZero gEdge01.w 0
    false 0 1 (by decide)

/-- C9 counterexample: undirected rewiring of gEdge01, whose only candidate
entry (0,1) has row < col and is skipped. The claim says a skipped mirror
entry consumes no random draw, so the final stream position would be 0; in
fact the p-draw is made before the skip test and the final position is 1. -/
theorem rewire_mirror_draw_cex :
    (rewire_graph_cpp gEdge01 (1 / 2) false false false true sigZero).2.1 = 1 ∧
    (rewire_graph_cpp gEdge01 (1 / 2) false false false true sigZero).1.w (0, 1)
      = gEdge01.w (0, 1) ∧ (1 : ℕ) ≠ 0 := by
  refine ⟨?_, ?_, by decide⟩
  · norm_num [rewire_graph_cpp, sparse_indexes, rewireStep, gEdge01, sigZero,
      List.range_succ, List.filterMap_cons, List.filterMap_nil]
  · norm_num [rewire_graph_cpp, sparse_indexes, rewireStep, gEdge01, sigZero,
      List.range_succ, List.filterMap_cons, List.filterMap_nil]

lemma rewireStep_invariant (n : ℕ) (p : ℚ) (be se mu un : Bool) (σ : ℕ → ℚ)
    (hσ : ValidStream σ) (st : (ℕ × ℕ → ℚ) × ℕ × Bool) (e : ℕ × ℕ)
    (hj : e.1 < n) (hk : e.2 < n) (hne : un = true → e.1 ≠ e.2)
    (hs : un = true → Symm st.1) :
    totN n (rewireStep n p be se mu un σ st e).1 = totN n st.1 ∧
    (un = true → Symm (rewireStep n p be se mu un σ st e).1) := by
  rcases rewireStep_eq n p be se mu un σ st e with heq | ⟨-, -, heq⟩
  · rw [heq]
    exact ⟨rfl, hs⟩
  · rw [heq]
    have hn1 : 1 ≤ n := by omega
    have hnj : (pickNewj be n e.1 (st.2.1 + 1) σ).1 < n := by
      unfold pickNewj
      cases be with
      | false => simpa using hj
      | true =>
        simp only [if_true]
        exact drawIdx_lt n (σ (st.2.1 + 1)) hn1 (hσ _).1 (hσ _).2
    have hnk : (newkSearch n se mu un st.1 (pickNewj be n e.1 (st.2.1 + 1) σ).1 σ
        (pickNewj be n e.1 (st.2.1 + 1) σ).2 (fun _ => false) 0
        (n * n + n + 1)).newk < n :=
      search_newk_lt n se mu un st.1 _ σ hσ hn1 _ _ _ _
    constructor
    · exact rewireAct_total n un st.1 e.1 e.2 _ _ hj hk hnj hnk
        (fun hu => ⟨hne hu, hs hu⟩)
    · intro hu
      subst hu
      exact rewireAct_symm st.1 e.1 e.2 _ _ (hs rfl)

lemma foldl_total (n : ℕ) (p : ℚ) (be se mu un : Bool) (σ : ℕ → ℚ)
    (hσ : ValidStream σ) (L : List (ℕ × ℕ)) :
    ∀ st : (ℕ × ℕ → ℚ) × ℕ × Bool,
      (∀ e ∈ L, e.1 < n ∧ e.2 < n ∧ (un = true → e.1 ≠ e.2)) →
      (un = true → Symm st.1) →
      totN n (L.foldl (rewireStep n p be se mu un σ) st).1 = totN n st.1 ∧
      (un = true → Symm (L.foldl (rewireStep n p be se mu un σ) st).1) := by
  induction L with
  | nil =>
    intro st _ hs
    exact ⟨rfl, hs⟩
  | cons e L ih =>
    intro st hL hs
    have he := hL e (List.mem_cons_self e L)
    have hstep := rewireStep_invariant n p be se mu un σ hσ st e
      he.1 he.2.1 he.2.2 hs
    have hrest := ih (rewireStep n p be se mu un σ st e)
      (fun e2 he2 => hL e2 (List.mem_cons_of_mem e he2)) hstep.2
    rw [List.foldl_cons]
    exact ⟨hrest.1.trans hstep.1, hrest.2⟩

/-- C1 (amended): the rewiring conserves total edge weight for every
directed run; for undirected runs it conserves total edge weight provided
the input graph satisfies the undirected storage invariants (symmetry and
zero diagonal). An undirected run on a graph violating these invariants can
create weight (counterexample: a self-loop is zeroed once but its weight is
added twice). -/
theorem rewire_total_weight_conserved (g : Graph) (p : ℚ) (be se mu un : Bool)
    (σ : ℕ → ℚ) (hσ : ValidStream σ)
    (hund : un = true → (Symm g.w ∧ ∀ i : ℕ, g.w (i, i) = 0)) :
    (rewire_graph_cpp g p be se mu un σ).1.total = g.total := by
  have hL : ∀ e ∈ sparse_indexes g,
      e.1 < g.n ∧ e.2 < g.n ∧ (un = true → e.1 ≠ e.2) := by
    intro e he
    have h2 := mem_sparse_indexes g e he
    refine ⟨h2.1, h2.2.1, fun hu hee => ?_⟩
    apply h2.2.2
    have h3 : ((e.1, e.2) : ℕ × ℕ) = e := Prod.mk.eta
    rw [← h3, ← hee]
    exact (hund hu).2 e.1
  show totN g.n ((sparse_indexes g).foldl
    (rewireStep g.n p be se mu un σ) (g.w, 0, false)).1 = totN g.n g.w
  exact (foldl_total g.n p be se mu un σ hσ (sparse_indexes g)
    (g.w, 0, false) hL (fun hu => (hund hu).1)).1

theorem rewire_total_weight_conserved_w :
    (rewire_graph_cpp gEdge01 (1 / 2) false false false false sigHalf).1.total
      = gEdge01.total :=
  rewire_total_weight_conserved gEdge01 (1 / 2) false false false false sigHalf
    validStream_sigHalf (fun h => Bool.noConfusion h)

/-- Concrete graph on 1 vertex with a single self-loop of weight 1. -/
def gLoop1 : Graph := ⟨1, fun c => if c = (0, 0) then 1 else 0⟩

/-- C1 counterexample: undirected rewiring of a one-vertex graph whose only
entry is the self-loop (0,0), with p = 1, allowSelfLoops=true,
allowMultiEdges=true and all draws 0: the loop's weight is zeroed once but
added twice (once per mirror), so the total weight grows from 1 to 2. -/
theorem rewire_total_weight_cex :
    gLoop1.total = 1 ∧
    (rewire_graph_cpp gLoop1 1 false true true true sigZero).1.total = 2 ∧
    (2 : ℚ) ≠ 1 := by
  refine ⟨?_, ?_, by norm_num⟩
  · norm_num [Graph.total, totN, gLoop1, Finset.sum_product, Prod.ext_iff]
    decide
  · norm_num [Graph.total, totN, rewire_graph_cpp, sparse_indexes, rewireStep,
      newkSearch, rewireAct, pickNewj, drawIdx, sigZero, gLoop1, Function.update,
      List.range_succ, List.filterMap_cons, List.filterMap_nil,
      Finset.sum_product, Prod.ext_iff]
